import Mathlib

/-!
Shallow embedding of the neighbor-sampling subsystem of GammaGL
(`gammagl/loader/Neighbour_sampler.py`, class `Neighbor_Sampler_python`),
together with proofs of the specification's testable properties.

Modelling conventions:
* Node ids and edge positions are `Nat` (the source uses int64 indices into
  numpy arrays; all values appearing in a valid CSR adjacency are
  non-negative).
* The Python dict `self.all_node` is modelled as an insertion-ordered
  association list `Remap = List (Nat × Nat)` with Python-dict semantics:
  assignment updates in place if the key is present, else appends.
* `np.random.choice(np.arange(0, len1), sample, replace=...)` is modelled by
  an oracle: each destination node receives a pre-drawn list `ind` of
  neighbor-relative indices.  Theorems about the random branches hypothesise
  exactly numpy's output contract (length `sample`, entries `< len1`, and
  distinct when `replace=False`).  `np.random.choice` raises `ValueError`
  when the population is empty and a nonzero number of samples is requested,
  or when the requested size is negative; that is the `.valueError` case.
* Fallible code returns `Except SampErr`; `KeyError` from `small_g`'s dict
  lookups is `.keyError`.
-/

namespace NSP

/-- Error cases of the sampler.  `valueError` is the `ValueError` raised by
`np.random.choice` (in particular, sampling with replacement from a
zero-degree node's empty neighbor range — the spec's
`EmptyNeighborhoodError`); `keyError` is the `KeyError` a failed
`self.all_node[...]` lookup in `small_g` would raise (the spec's
`UnresolvedNodeError`). -/
inductive SampErr where
  | valueError : SampErr
  | keyError : SampErr
deriving DecidableEq, Repr

/-- The remapper `self.all_node`: a Python dict from global node id to local
index, modelled as an insertion-ordered association list. -/
abbrev Remap := List (Nat × Nat)

/-- Python `d.get(k)`: first value stored under key `k`, if any. -/
def dictGet? : Remap → Nat → Option Nat
  | [], _ => none
  | (k', v') :: m, k => if k' = k then some v' else dictGet? m k

/-- Python `d[k] = v`: update the value in place if `k` is present
(insertion order of keys is preserved), else append the new pair. -/
def dictSet : Remap → Nat → Nat → Remap
  | [], k, v => [(k, v)]
  | (k', v') :: m, k, v => if k' = k then (k, v) :: m else (k', v') :: dictSet m k v

/-- Keys of the dict in insertion order (`list(d.keys())`). -/
def keys (m : Remap) : List Nat := m.map Prod.fst

/-- Lines 90-91: `for i, dst_node in enumerate(dst_nodes): self.all_node[dst_node] = i`,
unrolled with the running enumeration counter explicit. -/
def insertDstsFrom : Nat → List Nat → Remap → Remap
  | _, [], m => m
  | i, d :: ds, m => insertDstsFrom (i + 1) ds (dictSet m d i)

/-- The remapper state after the destination-insertion step of a hop. -/
def insertDsts (dst_nodes : List Nat) : Remap := insertDstsFrom 0 dst_nodes []

/-- `len1` of lines 98/113/131: `rowptr[d+1] - rowptr[d]`, the degree of `d`.
Out-of-range reads default to `0`, and truncated `Nat` subtraction matches
Python's empty `range` on a negative length. -/
def deg (rowptr : List Nat) (d : Nat) : Nat :=
  rowptr.getD (d + 1) 0 - rowptr.getD d 0

/-- The full CSR position range of node `d`: `range(st, st + len1)`
(lines 97-99). -/
def posFull (rowptr : List Nat) (d : Nat) : List Nat :=
  List.range' (rowptr.getD d 0) (deg rowptr d)

/-- Lines 100-101 / 114-115 / 133-134: insert the source endpoint
`edge_index[p][0]` of the selected edge into the remapper if absent, with
fresh local index `len(self.all_node)`. -/
def remapInsert (m : Remap) (s : Nat) : Remap :=
  if (dictGet? m s).isNone then dictSet m s m.length else m

/-- The body of each per-node selection loop: for every selected position
`p` (in order), insert the edge's source endpoint into the remapper and
append `p` to `e_id`. -/
def addPositions (ei : List (Nat × Nat)) : Remap × List Nat → List Nat → Remap × List Nat
  | st, [] => st
  | st, p :: ps =>
      addPositions ei (remapInsert st.1 (ei.getD p (0, 0)).1, st.2 ++ [p]) ps

/-- Lines 94-102: `sample == -1`, full-neighborhood expansion for every
destination node in input order. -/
def fullLoop (rowptr : List Nat) (ei : List (Nat × Nat)) :
    List Nat → Remap × List Nat → Remap × List Nat
  | [], st => st
  | d :: ds, st => fullLoop rowptr ei ds (addPositions ei st (posFull rowptr d))

/-- Lines 103-124: sampling without replacement.  If `sample >= len1` the
whole range is taken (no call into numpy, hence no failure); otherwise
`np.random.choice(arange(0, len1), sample, replace=False)` draws the node's
pre-drawn index list, raising `ValueError` for a negative `sample`. -/
def noRepLoop (sample : Int) (rowptr : List Nat) (ei : List (Nat × Nat)) :
    List Nat → List (List Nat) → Remap × List Nat → Except SampErr (Remap × List Nat)
  | [], _, st => .ok st
  | d :: ds, inds, st =>
      if sample ≥ (deg rowptr d : Int) then
        noRepLoop sample rowptr ei ds inds.tail (addPositions ei st (posFull rowptr d))
      else if sample < 0 then .error .valueError
      else
        noRepLoop sample rowptr ei ds inds.tail
          (addPositions ei st ((inds.headD []).map (rowptr.getD d 0 + ·)))

/-- Lines 125-136: sampling with replacement.
`np.random.choice(arange(0, len1), sample, replace=True)` raises `ValueError`
iff the population is empty and `sample ≠ 0`, or `sample < 0`; otherwise the
node's pre-drawn index list is used. -/
def repLoop (sample : Int) (rowptr : List Nat) (ei : List (Nat × Nat)) :
    List Nat → List (List Nat) → Remap × List Nat → Except SampErr (Remap × List Nat)
  | [], _, st => .ok st
  | d :: ds, inds, st =>
      if (deg rowptr d = 0 ∧ sample ≠ 0) ∨ sample < 0 then .error .valueError
      else
        repLoop sample rowptr ei ds inds.tail
          (addPositions ei st ((inds.headD []).map (rowptr.getD d 0 + ·)))

/-- Lines 93-136: the three-way branch of `sample_subset` on the fanout and
the replace flag, starting from the remapper state `m0` (after destination
insertion) and an empty `e_id` list.  Returns the final remapper and the
selected edge positions. -/
def sampleCore (sample : Int) (replace : Bool) (rowptr : List Nat) (ei : List (Nat × Nat))
    (dst_nodes : List Nat) (inds : List (List Nat)) (m0 : Remap) :
    Except SampErr (Remap × List Nat) :=
  if sample = -1 then .ok (fullLoop rowptr ei dst_nodes (m0, []))
  else if replace = false then noRepLoop sample rowptr ei dst_nodes inds (m0, [])
  else repLoop sample rowptr ei dst_nodes inds (m0, [])

/-- Lines 141-156 (`small_g`): renumber the selected edges through the
remapper.  A lookup of an untracked endpoint would raise `KeyError`. -/
def small_g (ei : List (Nat × Nat)) (m : Remap) : List Nat → Except SampErr (List (Nat × Nat))
  | [] => .ok []
  | i :: is =>
      match dictGet? m (ei.getD i (0, 0)).1, dictGet? m (ei.getD i (0, 0)).2 with
      | some x, some y =>
          match small_g ei m is with
          | .ok rest => .ok ((x, y) :: rest)
          | .error err => .error err
      | _, _ => .error .keyError

/-- Lines 86-139 (`sample_subset`): one hop.  Inserts the destination nodes
first (local ids `0..`), records `a = len(self.all_node)`, runs the
selection branch, renumbers the selected edges, and returns
`(list(all_node.keys()), (b, a), new_edges)` with `b` the final remapper
size. -/
def sample_subset (sample : Int) (replace : Bool) (rowptr : List Nat) (ei : List (Nat × Nat))
    (dst_nodes : List Nat) (inds : List (List Nat)) :
    Except SampErr (List Nat × (Nat × Nat) × List (Nat × Nat)) :=
  match sampleCore sample replace rowptr ei dst_nodes inds (insertDsts dst_nodes) with
  | .error err => .error err
  | .ok (m, e_id) =>
      match small_g ei m e_id with
      | .error err => .error err
      | .ok new_edges =>
          .ok (keys m, (m.length, (insertDsts dst_nodes).length), new_edges)

/-- The per-hop subgraph container (`class subg`): renumbered edges plus
`size = (all nodes, dst nodes)`.  The numpy transposition `edge.T` is a mere
layout change of the same pair list and is not modelled. -/
structure subg where
  edge : List (Nat × Nat)
  size : Nat × Nat
deriving DecidableEq, Repr

/-- Lines 75-84, the hop loop of `Neighbor_Sampler_python.sample`: one hop
per fanout value, feeding each hop's returned node list to the next hop as
its destination set, accumulating the subgraphs in sampling order.  The
randomness oracle pairs each fanout with its hop's pre-drawn index lists. -/
def sampleHops (replace : Bool) (rowptr : List Nat) (ei : List (Nat × Nat)) :
    List (Int × List (List Nat)) → List Nat → List subg →
    Except SampErr (List Nat × List subg)
  | [], dst, adjs => .ok (dst, adjs)
  | (s, inds) :: rest, dst, adjs =>
      match sample_subset s replace rowptr ei dst inds with
      | .error err => .error err
      | .ok (nodes, size, edges) =>
          sampleHops replace rowptr ei rest nodes (adjs ++ [⟨edges, size⟩])

/-- Lines 75-84 (`Neighbor_Sampler_python.sample`): run all hops starting
from the seed batch and return `[batch, adjs[::-1], all_node]`. -/
def sample (replace : Bool) (rowptr : List Nat) (ei : List (Nat × Nat))
    (hops : List (Int × List (List Nat))) (batch : List Nat) :
    Except SampErr (List Nat × List subg × List Nat) :=
  match sampleHops replace rowptr ei hops batch [] with
  | .error err => .error err
  | .ok (allNode, adjs) => .ok (batch, adjs.reverse, allNode)

/-- The state stored by `Neighbor_Sampler_python.__init__` (lines 61-73). -/
structure SamplerState where
  sample_list : List Int
  edge_index : List (Nat × Nat)
  dst_nodes : List Nat
  rowptr : List Nat
  replace : Bool
deriving DecidableEq, Repr

/-- Lines 61-73 (`Neighbor_Sampler_python.__init__`; the extension-backed
`Neighbor_Sampler.__init__`, lines 21-32, is identical in this respect):
the constructor only stores its arguments — the transposition of
`edge_index` into `[N,2]` pairs is represented by the pair list itself.  It
performs no validation whatsoever of `rowptr` (neither its length against
the node count nor its monotonicity) and cannot fail; the `Except` wrapper
makes the absence of any construction-time error explicit. -/
def sampler_init (edge_index : List (Nat × Nat)) (indptr : List Nat)
    (dst_nodes : List Nat) (sample_lists : List Int) (replace : Bool) :
    Except SampErr SamplerState :=
  .ok ⟨sample_lists, edge_index, dst_nodes, indptr, replace⟩

/-! ### Specification-side definitions -/

/-- Adjacent monotonicity of a row-pointer array (the CSR invariant
`rowptr` non-decreasing), in directly decidable bounded form. -/
def monoAt (rowptr : List Nat) : Prop :=
  ∀ i, i < rowptr.length - 1 → rowptr.getD i 0 ≤ rowptr.getD (i + 1) 0

instance (rowptr : List Nat) : Decidable (monoAt rowptr) :=
  Nat.decidableBallLT _ _

/-- Concatenated full ranges of the destination nodes in input order: the
`e_id` list the full-expansion branch produces. -/
def selFull (rowptr : List Nat) : List Nat → List Nat
  | [] => []
  | d :: ds => posFull rowptr d ++ selFull rowptr ds

/-- Positions selected for one node by the without-replacement branch:
everything if `sample ≥ degree`, else the pre-drawn indices offset into the
node's range. -/
def posNoRep (sample : Int) (rowptr : List Nat) (d : Nat) (ind : List Nat) : List Nat :=
  if sample ≥ (deg rowptr d : Int) then posFull rowptr d
  else ind.map (rowptr.getD d 0 + ·)

/-- Concatenated per-node selections of the without-replacement branch. -/
def selNoRep (sample : Int) (rowptr : List Nat) : List Nat → List (List Nat) → List Nat
  | [], _ => []
  | d :: ds, inds =>
      posNoRep sample rowptr d (inds.headD []) ++ selNoRep sample rowptr ds inds.tail

/-- Positions selected for one node by the with-replacement branch. -/
def posRep (rowptr : List Nat) (d : Nat) (ind : List Nat) : List Nat :=
  ind.map (rowptr.getD d 0 + ·)

/-- Concatenated per-node selections of the with-replacement branch. -/
def selRep (rowptr : List Nat) : List Nat → List (List Nat) → List Nat
  | [], _ => []
  | d :: ds, inds =>
      posRep rowptr d (inds.headD []) ++ selRep rowptr ds inds.tail

/-- The remapper's structural invariant: the stored local indices are
exactly `0, 1, ..., n-1` in insertion order. -/
def WfVals (m : Remap) : Prop := m.map Prod.snd = List.range m.length

/-- The pairs `(d, i)` the destination-insertion step stores for distinct
destination nodes, starting the enumeration at `i`. -/
def dstPairs : Nat → List Nat → Remap
  | _, [] => []
  | i, d :: ds => (d, i) :: dstPairs (i + 1) ds

/-- Modelled from the spec's driver description (§4.5): run the hops in
list order, feed each hop's returned node list to the next hop as its
destination set, and collect the per-hop subgraphs in sampling order.  Used
to state that the source's accumulator-and-reverse driver refines this
recursion. -/
def hopsSpec (replace : Bool) (rowptr : List Nat) (ei : List (Nat × Nat)) :
    List (Int × List (List Nat)) → List Nat → Except SampErr (List Nat × List subg)
  | [], dst => .ok (dst, [])
  | (s, inds) :: rest, dst =>
      match sample_subset s replace rowptr ei dst inds with
      | .error err => .error err
      | .ok (nodes, size, edges) =>
          match hopsSpec replace rowptr ei rest nodes with
          | .error err => .error err
          | .ok (fin, subs) => .ok (fin, ⟨edges, size⟩ :: subs)

/-! ### Lemmas: the dict model -/

theorem keys_nil : keys [] = [] := rfl

theorem keys_cons (k v : Nat) (m : Remap) : keys ((k, v) :: m) = k :: keys m := rfl

theorem keys_append (m t : Remap) : keys (m ++ t) = keys m ++ keys t :=
  List.map_append _ m t

theorem dictGet?_eq_none_iff (m : Remap) (k : Nat) :
    dictGet? m k = none ↔ k ∉ keys m := by
  induction m with
  | nil => simp [dictGet?, keys_nil]
  | cons kv m ih =>
      obtain ⟨k', v'⟩ := kv
      by_cases h : k' = k
      · subst h
        simp [dictGet?, keys_cons]
      · rw [keys_cons]
        simp only [dictGet?, if_neg h, ih, List.mem_cons]
        constructor
        · intro hn hc
          rcases hc with hc | hc
          · exact h hc.symm
          · exact hn hc
        · intro hn hc
          exact hn (Or.inr hc)

theorem dictSet_of_not_mem (m : Remap) (k v : Nat) (h : k ∉ keys m) :
    dictSet m k v = m ++ [(k, v)] := by
  induction m with
  | nil => simp [dictSet]
  | cons kv m ih =>
      obtain ⟨k', v'⟩ := kv
      rw [keys_cons, List.mem_cons] at h
      push_neg at h
      rw [dictSet, if_neg (fun hc => h.1 hc.symm), ih h.2, List.cons_append]

theorem mem_keys_dictSet (m : Remap) (k v x : Nat) :
    x ∈ keys (dictSet m k v) ↔ x ∈ keys m ∨ x = k := by
  induction m with
  | nil => simp [dictSet, keys_cons, keys_nil]
  | cons kv m ih =>
      obtain ⟨k', v'⟩ := kv
      by_cases h : k' = k
      · subst h
        rw [dictSet, if_pos rfl, keys_cons, keys_cons]
        simp only [List.mem_cons]
        tauto
      · rw [dictSet, if_neg h, keys_cons, keys_cons]
        simp only [List.mem_cons, ih]
        tauto

theorem remapInsert_eq (m : Remap) (s : Nat) :
    remapInsert m s = if s ∈ keys m then m else m ++ [(s, m.length)] := by
  unfold remapInsert
  by_cases h : s ∈ keys m
  · rw [if_neg, if_pos h]
    simp only [Option.isNone_iff_eq_none, dictGet?_eq_none_iff]
    exact fun hc => hc h
  · rw [if_pos, if_neg h, dictSet_of_not_mem m _ _ h]
    simp only [Option.isNone_iff_eq_none, dictGet?_eq_none_iff]
    exact h

theorem remapInsert_exists_append (m : Remap) (s : Nat) :
    ∃ t, remapInsert m s = m ++ t := by
  rw [remapInsert_eq]
  by_cases h : s ∈ keys m
  · exact ⟨[], by simp [h]⟩
  · exact ⟨[(s, m.length)], by simp [h]⟩

theorem mem_keys_remapInsert (m : Remap) (s x : Nat) :
    x ∈ keys (remapInsert m s) ↔ x ∈ keys m ∨ x = s := by
  rw [remapInsert_eq]
  by_cases h : s ∈ keys m
  · rw [if_pos h]
    constructor
    · tauto
    · rintro (hx | rfl) <;> [exact hx; exact h]
  · rw [if_neg h, keys_append]
    simp [keys_cons, keys_nil]

theorem wfVals_remapInsert (m : Remap) (s : Nat) (h : WfVals m) :
    WfVals (remapInsert m s) := by
  rw [remapInsert_eq]
  by_cases hs : s ∈ keys m
  · simpa [hs] using h
  · rw [if_neg hs]
    unfold WfVals at *
    simp [List.range_succ, h]

theorem nodupKeys_remapInsert (m : Remap) (s : Nat) (h : (keys m).Nodup) :
    (keys (remapInsert m s)).Nodup := by
  rw [remapInsert_eq]
  by_cases hs : s ∈ keys m
  · simpa [hs] using h
  · rw [if_neg hs, keys_append]
    rw [List.nodup_append]
    refine ⟨h, by simp [keys_cons, keys_nil], ?_⟩
    intro x hx
    simp only [keys_cons, keys_nil, List.mem_singleton, List.mem_cons, List.not_mem_nil,
      or_false]
    intro hxs
    subst hxs
    exact hs hx

/-! ### Lemmas: the selection-loop body -/

theorem addPositions_props (ei : List (Nat × Nat)) (ps : List Nat) : ∀ st : Remap × List Nat,
    (addPositions ei st ps).2 = st.2 ++ ps
    ∧ (∃ t, (addPositions ei st ps).1 = st.1 ++ t)
    ∧ (∀ x, x ∈ keys (addPositions ei st ps).1 ↔
        x ∈ keys st.1 ∨ ∃ p ∈ ps, x = (ei.getD p (0, 0)).1)
    ∧ (WfVals st.1 → WfVals (addPositions ei st ps).1)
    ∧ ((keys st.1).Nodup → (keys (addPositions ei st ps).1).Nodup) := by
  induction ps with
  | nil =>
      intro st
      refine ⟨by simp [addPositions], ⟨[], by simp [addPositions]⟩, ?_, ?_, ?_⟩ <;>
        simp [addPositions]
  | cons p ps ih =>
      intro st
      obtain ⟨m, e⟩ := st
      have hstep := ih (remapInsert m (ei.getD p (0, 0)).1, e ++ [p])
      obtain ⟨h2, ⟨t, ht⟩, hmem, hwf, hnd⟩ := hstep
      obtain ⟨t0, ht0⟩ := remapInsert_exists_append m (ei.getD p (0, 0)).1
      refine ⟨?_, ?_, ?_, ?_, ?_⟩
      · rw [addPositions, h2]
        simp
      · exact ⟨t0 ++ t, by rw [addPositions, ht, ht0, List.append_assoc]⟩
      · intro x
        rw [addPositions, hmem x, mem_keys_remapInsert]
        simp only [List.mem_cons]
        constructor
        · rintro ((hx | rfl) | ⟨q, hq, rfl⟩)
          · exact Or.inl hx
          · exact Or.inr ⟨p, Or.inl rfl, rfl⟩
          · exact Or.inr ⟨q, Or.inr hq, rfl⟩
        · rintro (hx | ⟨q, (rfl | hq), rfl⟩)
          · exact Or.inl (Or.inl hx)
          · exact Or.inl (Or.inr rfl)
          · exact Or.inr ⟨q, hq, rfl⟩
      · intro hw
        rw [addPositions]
        exact hwf (wfVals_remapInsert _ _ hw)
      · intro hn
        rw [addPositions]
        exact hnd (nodupKeys_remapInsert _ _ hn)

/-! ### Lemmas: row-pointer monotonicity and CSR ranges -/

theorem monoAt_le (rowptr : List Nat) (h : monoAt rowptr) :
    ∀ j, j < rowptr.length → ∀ i, i ≤ j → rowptr.getD i 0 ≤ rowptr.getD j 0 := by
  intro j
  induction j with
  | zero =>
      intro _ i hi
      have hi0 : i = 0 := Nat.le_zero.mp hi
      subst hi0
      exact le_refl _
  | succ j ih =>
      intro hj i hi
      rcases Nat.eq_or_lt_of_le hi with rfl | hlt
      · exact le_refl _
      · have h1 : rowptr.getD i 0 ≤ rowptr.getD j 0 :=
          ih (by omega) i (by omega)
        have h2 : rowptr.getD j 0 ≤ rowptr.getD (j + 1) 0 := h j (by omega)
        exact le_trans h1 h2

theorem mem_posFull (rowptr : List Nat) (d p : Nat) :
    p ∈ posFull rowptr d ↔
      rowptr.getD d 0 ≤ p ∧ p < rowptr.getD d 0 + deg rowptr d := by
  unfold posFull
  exact List.mem_range'_1

theorem mem_posFull_of_mono (rowptr : List Nat) (hm : monoAt rowptr) (d p : Nat)
    (hd : d + 1 < rowptr.length) :
    p ∈ posFull rowptr d ↔ rowptr.getD d 0 ≤ p ∧ p < rowptr.getD (d + 1) 0 := by
  rw [mem_posFull]
  have hadj : rowptr.getD d 0 ≤ rowptr.getD (d + 1) 0 := hm d (by omega)
  unfold deg
  omega

theorem posFull_nodup (rowptr : List Nat) (d : Nat) : (posFull rowptr d).Nodup := by
  unfold posFull
  exact List.nodup_range' _ _

theorem mem_selFull (rowptr : List Nat) (ds : List Nat) (p : Nat) :
    p ∈ selFull rowptr ds ↔ ∃ d ∈ ds, p ∈ posFull rowptr d := by
  induction ds with
  | nil => simp [selFull]
  | cons d ds ih =>
      rw [selFull, List.mem_append, ih]
      simp only [List.mem_cons]
      constructor
      · rintro (hp | ⟨d', hd', hp⟩)
        · exact ⟨d, Or.inl rfl, hp⟩
        · exact ⟨d', Or.inr hd', hp⟩
      · rintro ⟨d', (rfl | hd'), hp⟩
        · exact Or.inl hp
        · exact Or.inr ⟨d', hd', hp⟩

theorem posFull_disjoint (rowptr : List Nat) (hm : monoAt rowptr) (d d' p : Nat)
    (hd : d + 1 < rowptr.length) (hd' : d' + 1 < rowptr.length) (hne : d ≠ d')
    (hp : p ∈ posFull rowptr d) : p ∉ posFull rowptr d' := by
  intro hp'
  rw [mem_posFull_of_mono rowptr hm d p hd] at hp
  rw [mem_posFull_of_mono rowptr hm d' p hd'] at hp'
  rcases Nat.lt_or_ge d d' with hlt | hge
  · have : rowptr.getD (d + 1) 0 ≤ rowptr.getD d' 0 :=
      monoAt_le rowptr hm d' (by omega) (d + 1) (by omega)
    omega
  · have hlt' : d' < d := by omega
    have : rowptr.getD (d' + 1) 0 ≤ rowptr.getD d 0 :=
      monoAt_le rowptr hm d (by omega) (d' + 1) (by omega)
    omega

theorem selFull_nodup (rowptr : List Nat) (ds : List Nat) (hm : monoAt rowptr)
    (hnd : ds.Nodup) (hin : ∀ d ∈ ds, d + 1 < rowptr.length) :
    (selFull rowptr ds).Nodup := by
  induction ds with
  | nil => simp [selFull]
  | cons d ds ih =>
      rw [selFull, List.nodup_append]
      rw [List.nodup_cons] at hnd
      refine ⟨posFull_nodup rowptr d, ih hnd.2 (fun d' hd' => hin d' (List.mem_cons_of_mem d hd')), ?_⟩
      intro p hp hp'
      rw [mem_selFull] at hp'
      obtain ⟨d', hd', hpd'⟩ := hp'
      have hne : d ≠ d' := fun hc => hnd.1 (hc ▸ hd')
      exact posFull_disjoint rowptr hm d d' p
        (hin d (List.mem_cons_self d ds)) (hin d' (List.mem_cons_of_mem d hd')) hne hp hpd'

/-! ### Lemmas: the three selection loops -/

theorem mem_src_append (ei : List (Nat × Nat)) (ps1 ps2 : List Nat) (x : Nat) :
    (∃ p ∈ ps1 ++ ps2, x = (ei.getD p (0, 0)).1) ↔
      (∃ p ∈ ps1, x = (ei.getD p (0, 0)).1) ∨ (∃ p ∈ ps2, x = (ei.getD p (0, 0)).1) := by
  constructor
  · rintro ⟨p, hp, rfl⟩
    rcases List.mem_append.mp hp with h | h
    · exact Or.inl ⟨p, h, rfl⟩
    · exact Or.inr ⟨p, h, rfl⟩
  · rintro (⟨p, hp, rfl⟩ | ⟨p, hp, rfl⟩)
    · exact ⟨p, List.mem_append.mpr (Or.inl hp), rfl⟩
    · exact ⟨p, List.mem_append.mpr (Or.inr hp), rfl⟩

theorem fullLoop_props (rowptr : List Nat) (ei : List (Nat × Nat)) (ds : List Nat) :
    ∀ st : Remap × List Nat,
    (fullLoop rowptr ei ds st).2 = st.2 ++ selFull rowptr ds
    ∧ (∃ t, (fullLoop rowptr ei ds st).1 = st.1 ++ t)
    ∧ (∀ x, x ∈ keys (fullLoop rowptr ei ds st).1 ↔
        x ∈ keys st.1 ∨ ∃ p ∈ selFull rowptr ds, x = (ei.getD p (0, 0)).1)
    ∧ (WfVals st.1 → WfVals (fullLoop rowptr ei ds st).1)
    ∧ ((keys st.1).Nodup → (keys (fullLoop rowptr ei ds st).1).Nodup) := by
  induction ds with
  | nil =>
      intro st
      refine ⟨by simp [fullLoop, selFull], ⟨[], by simp [fullLoop]⟩, ?_, ?_, ?_⟩ <;>
        simp [fullLoop, selFull]
  | cons d ds ih =>
      intro st
      obtain ⟨ha2, ⟨ta, hta⟩, hamem, hawf, hand⟩ := addPositions_props ei (posFull rowptr d) st
      obtain ⟨h2, ⟨t, ht⟩, hmem, hwf, hnd⟩ := ih (addPositions ei st (posFull rowptr d))
      refine ⟨?_, ?_, ?_, ?_, ?_⟩
      · rw [fullLoop, h2, ha2, selFull, List.append_assoc]
      · exact ⟨ta ++ t, by rw [fullLoop, ht, hta, List.append_assoc]⟩
      · intro x
        rw [fullLoop, hmem x, hamem x, selFull, mem_src_append]
        exact or_assoc
      · intro hw
        rw [fullLoop]
        exact hwf (hawf hw)
      · intro hn
        rw [fullLoop]
        exact hnd (hand hn)

theorem noRepLoop_ok_of_nonneg (sample : Int) (rowptr : List Nat) (ei : List (Nat × Nat))
    (hs : 0 ≤ sample) (ds : List Nat) : ∀ (inds : List (List Nat)) (st : Remap × List Nat),
    ∃ M, noRepLoop sample rowptr ei ds inds st
        = .ok (M, st.2 ++ selNoRep sample rowptr ds inds)
    ∧ (∃ t, M = st.1 ++ t)
    ∧ (∀ x, x ∈ keys M ↔
        x ∈ keys st.1 ∨ ∃ p ∈ selNoRep sample rowptr ds inds, x = (ei.getD p (0, 0)).1)
    ∧ (WfVals st.1 → WfVals M)
    ∧ ((keys st.1).Nodup → (keys M).Nodup) := by
  induction ds with
  | nil =>
      intro inds st
      refine ⟨st.1, by simp [noRepLoop, selNoRep], ⟨[], by simp⟩, ?_, ?_, ?_⟩ <;>
        simp [selNoRep]
  | cons d ds ih =>
      intro inds st
      by_cases hge : sample ≥ (deg rowptr d : Int)
      · obtain ⟨ha2, ⟨ta, hta⟩, hamem, hawf, hand⟩ := addPositions_props ei (posFull rowptr d) st
        obtain ⟨M, hMeq, ⟨t, ht⟩, hmem, hwf, hnd⟩ :=
          ih inds.tail (addPositions ei st (posFull rowptr d))
        refine ⟨M, ?_, ⟨ta ++ t, by rw [ht, hta, List.append_assoc]⟩, ?_, ?_, ?_⟩
        · rw [noRepLoop, if_pos hge, hMeq, ha2, selNoRep, posNoRep, if_pos hge,
            List.append_assoc]
        · intro x
          rw [hmem x, hamem x, selNoRep, posNoRep, if_pos hge, mem_src_append]
          exact or_assoc
        · exact fun hw => hwf (hawf hw)
        · exact fun hn => hnd (hand hn)
      · have hneg : ¬ sample < 0 := by omega
        obtain ⟨ha2, ⟨ta, hta⟩, hamem, hawf, hand⟩ :=
          addPositions_props ei ((inds.headD []).map (rowptr.getD d 0 + ·)) st
        obtain ⟨M, hMeq, ⟨t, ht⟩, hmem, hwf, hnd⟩ :=
          ih inds.tail (addPositions ei st ((inds.headD []).map (rowptr.getD d 0 + ·)))
        refine ⟨M, ?_, ⟨ta ++ t, by rw [ht, hta, List.append_assoc]⟩, ?_, ?_, ?_⟩
        · rw [noRepLoop, if_neg hge, if_neg hneg, hMeq, ha2, selNoRep, posNoRep, if_neg hge,
            List.append_assoc]
        · intro x
          rw [hmem x, hamem x, selNoRep, posNoRep, if_neg hge, mem_src_append]
          exact or_assoc
        · exact fun hw => hwf (hawf hw)
        · exact fun hn => hnd (hand hn)

theorem repLoop_ok_of (sample : Int) (rowptr : List Nat) (ei : List (Nat × Nat))
    (hs : 0 ≤ sample) (ds : List Nat) (hz : ∀ d ∈ ds, ¬(deg rowptr d = 0 ∧ sample ≠ 0)) :
    ∀ (inds : List (List Nat)) (st : Remap × List Nat),
    ∃ M, repLoop sample rowptr ei ds inds st = .ok (M, st.2 ++ selRep rowptr ds inds)
    ∧ (∃ t, M = st.1 ++ t)
    ∧ (∀ x, x ∈ keys M ↔
        x ∈ keys st.1 ∨ ∃ p ∈ selRep rowptr ds inds, x = (ei.getD p (0, 0)).1)
    ∧ (WfVals st.1 → WfVals M)
    ∧ ((keys st.1).Nodup → (keys M).Nodup) := by
  induction ds with
  | nil =>
      intro inds st
      refine ⟨st.1, by simp [repLoop, selRep], ⟨[], by simp⟩, ?_, ?_, ?_⟩ <;>
        simp [selRep]
  | cons d ds ih =>
      intro inds st
      have hguard : ¬((deg rowptr d = 0 ∧ sample ≠ 0) ∨ sample < 0) := by
        rintro (h | h)
        · exact hz d (List.mem_cons_self d ds) h
        · omega
      obtain ⟨ha2, ⟨ta, hta⟩, hamem, hawf, hand⟩ :=
        addPositions_props ei ((inds.headD []).map (rowptr.getD d 0 + ·)) st
      obtain ⟨M, hMeq, ⟨t, ht⟩, hmem, hwf, hnd⟩ :=
        (ih (fun d' hd' => hz d' (List.mem_cons_of_mem d hd'))) inds.tail
          (addPositions ei st ((inds.headD []).map (rowptr.getD d 0 + ·)))
      refine ⟨M, ?_, ⟨ta ++ t, by rw [ht, hta, List.append_assoc]⟩, ?_, ?_, ?_⟩
      · rw [repLoop, if_neg hguard, hMeq, ha2, selRep, posRep, List.append_assoc]
      · intro x
        rw [hmem x, hamem x, selRep, posRep, mem_src_append]
        exact or_assoc
      · exact fun hw => hwf (hawf hw)
      · exact fun hn => hnd (hand hn)

theorem repLoop_error_of (sample : Int) (rowptr : List Nat) (ei : List (Nat × Nat))
    (hsn : sample ≠ 0) (ds : List Nat) :
    ∀ (inds : List (List Nat)) (st : Remap × List Nat),
    (∃ d ∈ ds, deg rowptr d = 0) →
    repLoop sample rowptr ei ds inds st = .error .valueError := by
  induction ds with
  | nil =>
      rintro inds st ⟨d, hd, _⟩
      exact absurd hd (List.not_mem_nil d)
  | cons d ds ih =>
      rintro inds st ⟨d', hd', hdeg⟩
      by_cases hguard : (deg rowptr d = 0 ∧ sample ≠ 0) ∨ sample < 0
      · rw [repLoop, if_pos hguard]
      · rw [repLoop, if_neg hguard]
        push_neg at hguard
        have hdne : deg rowptr d ≠ 0 := fun h => hsn (hguard.1 h)
        rcases List.mem_cons.mp hd' with rfl | hmem
        · exact absurd hdeg hdne
        · exact ih inds.tail _ ⟨d', hmem, hdeg⟩

theorem noRepLoop_ok_inv (sample : Int) (rowptr : List Nat) (ei : List (Nat × Nat))
    (ds : List Nat) : ∀ (inds : List (List Nat)) (st : Remap × List Nat) (M : Remap)
    (E : List Nat), noRepLoop sample rowptr ei ds inds st = .ok (M, E) →
    ∃ E', E = st.2 ++ E'
    ∧ (∃ t, M = st.1 ++ t)
    ∧ (∀ x, x ∈ keys M ↔ x ∈ keys st.1 ∨ ∃ p ∈ E', x = (ei.getD p (0, 0)).1)
    ∧ (WfVals st.1 → WfVals M)
    ∧ ((keys st.1).Nodup → (keys M).Nodup) := by
  induction ds with
  | nil =>
      intro inds st M E h
      rw [noRepLoop] at h
      obtain ⟨h1, h2⟩ : st.1 = M ∧ st.2 = E := by
        have := h
        simp only [Except.ok.injEq] at this
        exact ⟨congrArg Prod.fst this, congrArg Prod.snd this⟩
      subst h1
      subst h2
      exact ⟨[], by simp, ⟨[], by simp⟩, by simp, fun hw => hw, fun hn => hn⟩
  | cons d ds ih =>
      intro inds st M E h
      by_cases hge : sample ≥ (deg rowptr d : Int)
      · rw [noRepLoop, if_pos hge] at h
        obtain ⟨ha2, ⟨ta, hta⟩, hamem, hawf, hand⟩ := addPositions_props ei (posFull rowptr d) st
        obtain ⟨E'', hE, ⟨t, ht⟩, hmem, hwf, hnd⟩ := ih inds.tail _ M E h
        refine ⟨posFull rowptr d ++ E'', by rw [hE, ha2, List.append_assoc],
          ⟨ta ++ t, by rw [ht, hta, List.append_assoc]⟩, ?_, fun hw => hwf (hawf hw),
          fun hn => hnd (hand hn)⟩
        intro x
        rw [hmem x, hamem x, mem_src_append]
        exact or_assoc
      · by_cases hneg : sample < 0
        · rw [noRepLoop, if_neg hge, if_pos hneg] at h
          exact absurd h (by simp)
        · rw [noRepLoop, if_neg hge, if_neg hneg] at h
          obtain ⟨ha2, ⟨ta, hta⟩, hamem, hawf, hand⟩ :=
            addPositions_props ei ((inds.headD []).map (rowptr.getD d 0 + ·)) st
          obtain ⟨E'', hE, ⟨t, ht⟩, hmem, hwf, hnd⟩ := ih inds.tail _ M E h
          refine ⟨(inds.headD []).map (rowptr.getD d 0 + ·) ++ E'',
            by rw [hE, ha2, List.append_assoc],
            ⟨ta ++ t, by rw [ht, hta, List.append_assoc]⟩, ?_, fun hw => hwf (hawf hw),
            fun hn => hnd (hand hn)⟩
          intro x
          rw [hmem x, hamem x, mem_src_append]
          exact or_assoc

theorem repLoop_ok_inv (sample : Int) (rowptr : List Nat) (ei : List (Nat × Nat))
    (ds : List Nat) : ∀ (inds : List (List Nat)) (st : Remap × List Nat) (M : Remap)
    (E : List Nat), repLoop sample rowptr ei ds inds st = .ok (M, E) →
    ∃ E', E = st.2 ++ E'
    ∧ (∃ t, M = st.1 ++ t)
    ∧ (∀ x, x ∈ keys M ↔ x ∈ keys st.1 ∨ ∃ p ∈ E', x = (ei.getD p (0, 0)).1)
    ∧ (WfVals st.1 → WfVals M)
    ∧ ((keys st.1).Nodup → (keys M).Nodup) := by
  induction ds with
  | nil =>
      intro inds st M E h
      rw [repLoop] at h
      obtain ⟨h1, h2⟩ : st.1 = M ∧ st.2 = E := by
        have := h
        simp only [Except.ok.injEq] at this
        exact ⟨congrArg Prod.fst this, congrArg Prod.snd this⟩
      subst h1
      subst h2
      exact ⟨[], by simp, ⟨[], by simp⟩, by simp, fun hw => hw, fun hn => hn⟩
  | cons d ds ih =>
      intro inds st M E h
      by_cases hguard : (deg rowptr d = 0 ∧ sample ≠ 0) ∨ sample < 0
      · rw [repLoop, if_pos hguard] at h
        exact absurd h (by simp)
      · rw [repLoop, if_neg hguard] at h
        obtain ⟨ha2, ⟨ta, hta⟩, hamem, hawf, hand⟩ :=
          addPositions_props ei ((inds.headD []).map (rowptr.getD d 0 + ·)) st
        obtain ⟨E'', hE, ⟨t, ht⟩, hmem, hwf, hnd⟩ := ih inds.tail _ M E h
        refine ⟨(inds.headD []).map (rowptr.getD d 0 + ·) ++ E'',
          by rw [hE, ha2, List.append_assoc],
          ⟨ta ++ t, by rw [ht, hta, List.append_assoc]⟩, ?_, fun hw => hwf (hawf hw),
          fun hn => hnd (hand hn)⟩
        intro x
        rw [hmem x, hamem x, mem_src_append]
        exact or_assoc

theorem noRepLoop_ok_bounds (sample : Int) (rowptr : List Nat) (ei : List (Nat × Nat))
    (ds : List Nat) : ∀ (inds : List (List Nat)),
    List.Forall₂ (fun d ind => ∀ x ∈ ind, x < deg rowptr d) ds inds →
    ∀ (st : Remap × List Nat) (M : Remap) (E : List Nat),
    noRepLoop sample rowptr ei ds inds st = .ok (M, E) →
    ∀ p ∈ E, p ∈ st.2 ∨
      ∃ d ∈ ds, rowptr.getD d 0 ≤ p ∧ p < rowptr.getD d 0 + deg rowptr d := by
  induction ds with
  | nil =>
      intro inds _ st M E h p hp
      rw [noRepLoop] at h
      have h2 : st.2 = E := by
        simp only [Except.ok.injEq] at h
        exact congrArg Prod.snd h
      exact Or.inl (h2 ▸ hp)
  | cons d ds ih =>
      intro inds hf st M E h p hp
      rcases hf with _ | ⟨hdind, hf'⟩
      rename_i ind inds'
      have htl : (ind :: inds').tail = inds' := rfl
      have hhd : (ind :: inds').headD [] = ind := rfl
      by_cases hge : sample ≥ (deg rowptr d : Int)
      · rw [noRepLoop, if_pos hge, htl] at h
        have := ih inds' hf' _ M E h p hp
        rcases this with hin | ⟨d', hd', hb⟩
        · rw [(addPositions_props ei (posFull rowptr d) st).1, List.mem_append] at hin
          rcases hin with hin | hin
          · exact Or.inl hin
          · rw [mem_posFull] at hin
            exact Or.inr ⟨d, List.mem_cons_self d ds, hin⟩
        · exact Or.inr ⟨d', List.mem_cons_of_mem d hd', hb⟩
      · by_cases hneg : sample < 0
        · rw [noRepLoop, if_neg hge, if_pos hneg] at h
          exact absurd h (by simp)
        · rw [noRepLoop, if_neg hge, if_neg hneg, htl, hhd] at h
          have := ih inds' hf' _ M E h p hp
          rcases this with hin | ⟨d', hd', hb⟩
          · rw [(addPositions_props ei (ind.map (rowptr.getD d 0 + ·)) st).1,
              List.mem_append] at hin
            rcases hin with hin | hin
            · exact Or.inl hin
            · rw [List.mem_map] at hin
              obtain ⟨x, hx, rfl⟩ := hin
              exact Or.inr ⟨d, List.mem_cons_self d ds,
                ⟨Nat.le_add_right _ _, by have := hdind x hx; omega⟩⟩
          · exact Or.inr ⟨d', List.mem_cons_of_mem d hd', hb⟩

theorem repLoop_ok_bounds (sample : Int) (rowptr : List Nat) (ei : List (Nat × Nat))
    (ds : List Nat) : ∀ (inds : List (List Nat)),
    List.Forall₂ (fun d ind => ∀ x ∈ ind, x < deg rowptr d) ds inds →
    ∀ (st : Remap × List Nat) (M : Remap) (E : List Nat),
    repLoop sample rowptr ei ds inds st = .ok (M, E) →
    ∀ p ∈ E, p ∈ st.2 ∨
      ∃ d ∈ ds, rowptr.getD d 0 ≤ p ∧ p < rowptr.getD d 0 + deg rowptr d := by
  induction ds with
  | nil =>
      intro inds _ st M E h p hp
      rw [repLoop] at h
      have h2 : st.2 = E := by
        simp only [Except.ok.injEq] at h
        exact congrArg Prod.snd h
      exact Or.inl (h2 ▸ hp)
  | cons d ds ih =>
      intro inds hf st M E h p hp
      rcases hf with _ | ⟨hdind, hf'⟩
      rename_i ind inds'
      have htl : (ind :: inds').tail = inds' := rfl
      have hhd : (ind :: inds').headD [] = ind := rfl
      by_cases hguard : (deg rowptr d = 0 ∧ sample ≠ 0) ∨ sample < 0
      · rw [repLoop, if_pos hguard] at h
        exact absurd h (by simp)
      · rw [repLoop, if_neg hguard, htl, hhd] at h
        have := ih inds' hf' _ M E h p hp
        rcases this with hin | ⟨d', hd', hb⟩
        · rw [(addPositions_props ei (ind.map (rowptr.getD d 0 + ·)) st).1,
            List.mem_append] at hin
          rcases hin with hin | hin
          · exact Or.inl hin
          · rw [List.mem_map] at hin
            obtain ⟨x, hx, rfl⟩ := hin
            exact Or.inr ⟨d, List.mem_cons_self d ds,
              ⟨Nat.le_add_right _ _, by have := hdind x hx; omega⟩⟩
        · exact Or.inr ⟨d', List.mem_cons_of_mem d hd', hb⟩

/-! ### Lemmas: the destination-insertion step -/

theorem keys_dstPairs (ds : List Nat) : ∀ i, keys (dstPairs i ds) = ds := by
  induction ds with
  | nil => intro i; rfl
  | cons d ds ih =>
      intro i
      rw [dstPairs, keys_cons, ih (i + 1)]

theorem snd_dstPairs (ds : List Nat) :
    ∀ i, (dstPairs i ds).map Prod.snd = List.range' i ds.length := by
  induction ds with
  | nil => intro i; rfl
  | cons d ds ih =>
      intro i
      rw [dstPairs, List.map_cons, ih (i + 1), List.length_cons, List.range'_succ]

theorem length_dstPairs (ds : List Nat) : ∀ i, (dstPairs i ds).length = ds.length := by
  induction ds with
  | nil => intro i; rfl
  | cons d ds ih =>
      intro i
      rw [dstPairs, List.length_cons, ih (i + 1), List.length_cons]

theorem insertDstsFrom_eq (ds : List Nat) (hnd : ds.Nodup) :
    ∀ (i : Nat) (m : Remap), (∀ d ∈ ds, d ∉ keys m) →
    insertDstsFrom i ds m = m ++ dstPairs i ds := by
  induction ds with
  | nil => intro i m _; simp [insertDstsFrom, dstPairs]
  | cons d ds ih =>
      intro i m hm
      rw [List.nodup_cons] at hnd
      rw [insertDstsFrom, dictSet_of_not_mem m d i (hm d (List.mem_cons_self d ds))]
      rw [ih hnd.2 (i + 1) (m ++ [(d, i)]) ?_, dstPairs, List.append_assoc,
        List.singleton_append]
      intro d' hd'
      rw [keys_append, List.mem_append]
      rintro (hin | hin)
      · exact hm d' (List.mem_cons_of_mem d hd') hin
      · simp only [keys_cons, keys_nil, List.mem_singleton, List.mem_cons,
          List.not_mem_nil, or_false] at hin
        exact hnd.1 (hin ▸ hd')

theorem insertDsts_eq_dstPairs (ds : List Nat) (hnd : ds.Nodup) :
    insertDsts ds = dstPairs 0 ds := by
  rw [insertDsts, insertDstsFrom_eq ds hnd 0 [] (by intro d _; simp [keys_nil]),
    List.nil_append]

theorem keys_insertDsts (ds : List Nat) (hnd : ds.Nodup) : keys (insertDsts ds) = ds := by
  rw [insertDsts_eq_dstPairs ds hnd, keys_dstPairs]

theorem length_insertDsts (ds : List Nat) (hnd : ds.Nodup) :
    (insertDsts ds).length = ds.length := by
  rw [insertDsts_eq_dstPairs ds hnd, length_dstPairs]

theorem wfVals_insertDsts (ds : List Nat) (hnd : ds.Nodup) : WfVals (insertDsts ds) := by
  unfold WfVals
  rw [insertDsts_eq_dstPairs ds hnd, snd_dstPairs, length_dstPairs, List.range_eq_range']

theorem mem_keys_insertDstsFrom (ds : List Nat) :
    ∀ (i : Nat) (m : Remap) (d : Nat), d ∈ ds ∨ d ∈ keys m →
    d ∈ keys (insertDstsFrom i ds m) := by
  induction ds with
  | nil =>
      rintro i m d (hd | hd)
      · exact absurd hd (List.not_mem_nil d)
      · exact hd
  | cons d0 ds ih =>
      rintro i m d hd
      rw [insertDstsFrom]
      refine ih (i + 1) _ d ?_
      rcases hd with hd | hd
      · rcases List.mem_cons.mp hd with rfl | hd
        · exact Or.inr ((mem_keys_dictSet m d i d).mpr (Or.inr rfl))
        · exact Or.inl hd
      · exact Or.inr ((mem_keys_dictSet m d0 i d).mpr (Or.inl hd))

theorem mem_keys_insertDsts (ds : List Nat) (d : Nat) (hd : d ∈ ds) :
    d ∈ keys (insertDsts ds) :=
  mem_keys_insertDstsFrom ds 0 [] d (Or.inl hd)

theorem dictGet?_dstPairs (ds : List Nat) (hnd : ds.Nodup) :
    ∀ (i k : Nat), k < ds.length → dictGet? (dstPairs i ds) (ds.getD k 0) = some (i + k) := by
  induction ds with
  | nil => intro i k hk; exact absurd hk (by simp)
  | cons d ds ih =>
      rw [List.nodup_cons] at hnd
      intro i k hk
      match k with
      | 0 => rw [dstPairs]; simp [dictGet?]
      | Nat.succ k' =>
          have hk' : k' < ds.length := by simpa using hk
          have hmem : ds.getD k' 0 ∈ ds := by
            rw [List.getD_eq_getElem ds 0 hk']
            exact List.getElem_mem hk'
          have hne : d ≠ ds.getD k' 0 := fun hc => hnd.1 (hc ▸ hmem)
          rw [dstPairs]
          show dictGet? ((d, i) :: dstPairs (i + 1) ds) (ds.getD k' 0) = _
          rw [dictGet?, if_neg hne, ih hnd.2 (i + 1) k' hk']
          congr 1
          omega

/-! ### Lemmas: values and the renumbering step -/

theorem dictGet?_mem_snd (m : Remap) (k v : Nat) (h : dictGet? m k = some v) :
    v ∈ m.map Prod.snd := by
  induction m with
  | nil => exact absurd h (by simp [dictGet?])
  | cons kv m ih =>
      obtain ⟨k', v'⟩ := kv
      rw [dictGet?] at h
      by_cases hk : k' = k
      · rw [if_pos hk] at h
        simp only [Option.some.injEq] at h
        simp [h]
      · rw [if_neg hk] at h
        simp [ih h]

theorem dictGet?_some_of_mem (m : Remap) (k : Nat) (h : k ∈ keys m) :
    ∃ v, dictGet? m k = some v := by
  rcases ho : dictGet? m k with _ | v
  · exact absurd ((dictGet?_eq_none_iff m k).mp ho) (by simpa using h)
  · exact ⟨v, rfl⟩

theorem small_g_ok_of (ei : List (Nat × Nat)) (m : Remap) (eids : List Nat)
    (h : ∀ p ∈ eids, (ei.getD p (0, 0)).1 ∈ keys m ∧ (ei.getD p (0, 0)).2 ∈ keys m) :
    ∃ edges, small_g ei m eids = .ok edges ∧ edges.length = eids.length
    ∧ ∀ q ∈ edges, q.1 ∈ m.map Prod.snd ∧ q.2 ∈ m.map Prod.snd := by
  induction eids with
  | nil => exact ⟨[], rfl, rfl, by simp⟩
  | cons i is ih =>
      obtain ⟨hs, hd⟩ := h i (List.mem_cons_self i is)
      obtain ⟨x, hx⟩ := dictGet?_some_of_mem m _ hs
      obtain ⟨y, hy⟩ := dictGet?_some_of_mem m _ hd
      obtain ⟨E, hE, hlen, hq⟩ := ih (fun p hp => h p (List.mem_cons_of_mem i hp))
      refine ⟨(x, y) :: E, ?_, by simp [hlen], ?_⟩
      · rw [small_g, hx, hy, hE]
      · rintro q hq'
        rcases List.mem_cons.mp hq' with rfl | hq'
        · exact ⟨dictGet?_mem_snd m _ x hx, dictGet?_mem_snd m _ y hy⟩
        · exact hq q hq'

theorem small_g_ok_values (ei : List (Nat × Nat)) (m : Remap) :
    ∀ (eids : List Nat) (E : List (Nat × Nat)), small_g ei m eids = .ok E →
    ∀ q ∈ E, q.1 ∈ m.map Prod.snd ∧ q.2 ∈ m.map Prod.snd := by
  intro eids
  induction eids with
  | nil =>
      intro E h q hq
      rw [small_g] at h
      simp only [Except.ok.injEq] at h
      subst h
      exact absurd hq (List.not_mem_nil q)
  | cons i is ih =>
      intro E h q hq
      rw [small_g] at h
      rcases h1 : dictGet? m (ei.getD i (0, 0)).1 with _ | x <;> rw [h1] at h
      · exact absurd h (by simp)
      · rcases h2 : dictGet? m (ei.getD i (0, 0)).2 with _ | y <;> rw [h2] at h
        · exact absurd h (by simp)
        · rcases h3 : small_g ei m is with err | rest <;> rw [h3] at h
          · exact absurd h (by simp)
          · simp only [Except.ok.injEq] at h
            subst h
            rcases List.mem_cons.mp hq with rfl | hq'
            · exact ⟨dictGet?_mem_snd m _ x h1, dictGet?_mem_snd m _ y h2⟩
            · exact ih rest h3 q hq'

/-! ### Lemmas: inversion of a successful or failed hop -/

theorem sampleCore_ok_inv (sample : Int) (replace : Bool) (rowptr : List Nat)
    (ei : List (Nat × Nat)) (ds : List Nat) (inds : List (List Nat)) (m0 m : Remap)
    (e : List Nat) (h : sampleCore sample replace rowptr ei ds inds m0 = .ok (m, e)) :
    (∃ t, m = m0 ++ t)
    ∧ (∀ x, x ∈ keys m ↔ x ∈ keys m0 ∨ ∃ p ∈ e, x = (ei.getD p (0, 0)).1)
    ∧ (WfVals m0 → WfVals m)
    ∧ ((keys m0).Nodup → (keys m).Nodup) := by
  unfold sampleCore at h
  by_cases h1 : sample = -1
  · rw [if_pos h1] at h
    simp only [Except.ok.injEq] at h
    obtain ⟨hm, he⟩ : (fullLoop rowptr ei ds (m0, [])).1 = m
        ∧ (fullLoop rowptr ei ds (m0, [])).2 = e :=
      ⟨congrArg Prod.fst h, congrArg Prod.snd h⟩
    obtain ⟨h2, ⟨t, ht⟩, hmem, hwf, hnd⟩ := fullLoop_props rowptr ei ds (m0, [])
    rw [List.nil_append] at h2
    subst hm
    refine ⟨⟨t, ht⟩, ?_, hwf, hnd⟩
    intro x
    rw [hmem x, ← he, h2]
  · rw [if_neg h1] at h
    cases replace with
    | false =>
        rw [if_pos rfl] at h
        obtain ⟨E', hE, ⟨t, ht⟩, hmem, hwf, hnd⟩ :=
          noRepLoop_ok_inv sample rowptr ei ds inds (m0, []) m e h
        rw [List.nil_append] at hE
        subst hE
        exact ⟨⟨t, ht⟩, hmem, hwf, hnd⟩
    | true =>
        rw [if_neg (by simp)] at h
        obtain ⟨E', hE, ⟨t, ht⟩, hmem, hwf, hnd⟩ :=
          repLoop_ok_inv sample rowptr ei ds inds (m0, []) m e h
        rw [List.nil_append] at hE
        subst hE
        exact ⟨⟨t, ht⟩, hmem, hwf, hnd⟩

theorem noRepLoop_error_val (sample : Int) (rowptr : List Nat) (ei : List (Nat × Nat))
    (ds : List Nat) : ∀ (inds : List (List Nat)) (st : Remap × List Nat) (err : SampErr),
    noRepLoop sample rowptr ei ds inds st = .error err → err = .valueError := by
  induction ds with
  | nil =>
      intro inds st err h
      rw [noRepLoop] at h
      exact absurd h (by simp)
  | cons d ds ih =>
      intro inds st err h
      by_cases hge : sample ≥ (deg rowptr d : Int)
      · rw [noRepLoop, if_pos hge] at h
        exact ih inds.tail _ err h
      · by_cases hneg : sample < 0
        · rw [noRepLoop, if_neg hge, if_pos hneg] at h
          simp only [Except.error.injEq] at h
          exact h.symm
        · rw [noRepLoop, if_neg hge, if_neg hneg] at h
          exact ih inds.tail _ err h

theorem repLoop_error_val (sample : Int) (rowptr : List Nat) (ei : List (Nat × Nat))
    (ds : List Nat) : ∀ (inds : List (List Nat)) (st : Remap × List Nat) (err : SampErr),
    repLoop sample rowptr ei ds inds st = .error err → err = .valueError := by
  induction ds with
  | nil =>
      intro inds st err h
      rw [repLoop] at h
      exact absurd h (by simp)
  | cons d ds ih =>
      intro inds st err h
      by_cases hguard : (deg rowptr d = 0 ∧ sample ≠ 0) ∨ sample < 0
      · rw [repLoop, if_pos hguard] at h
        simp only [Except.error.injEq] at h
        exact h.symm
      · rw [repLoop, if_neg hguard] at h
        exact ih inds.tail _ err h

theorem sampleCore_error_val (sample : Int) (replace : Bool) (rowptr : List Nat)
    (ei : List (Nat × Nat)) (ds : List Nat) (inds : List (List Nat)) (m0 : Remap)
    (err : SampErr) (h : sampleCore sample replace rowptr ei ds inds m0 = .error err) :
    err = .valueError := by
  unfold sampleCore at h
  by_cases h1 : sample = -1
  · rw [if_pos h1] at h
    exact absurd h (by simp)
  · rw [if_neg h1] at h
    cases replace with
    | false =>
        rw [if_pos rfl] at h
        exact noRepLoop_error_val sample rowptr ei ds inds (m0, []) err h
    | true =>
        rw [if_neg (by simp)] at h
        exact repLoop_error_val sample rowptr ei ds inds (m0, []) err h

/-! ### Lemmas: the driver -/

theorem sampleHops_eq (replace : Bool) (rowptr : List Nat) (ei : List (Nat × Nat)) :
    ∀ (hops : List (Int × List (List Nat))) (dst : List Nat) (adjs : List subg),
    sampleHops replace rowptr ei hops dst adjs
      = (hopsSpec replace rowptr ei hops dst).map (fun q => (q.1, adjs ++ q.2)) := by
  intro hops
  induction hops with
  | nil =>
      intro dst adjs
      simp [sampleHops, hopsSpec, Except.map]
  | cons hop rest ih =>
      intro dst adjs
      obtain ⟨s, inds⟩ := hop
      rw [sampleHops, hopsSpec]
      rcases hc : sample_subset s replace rowptr ei dst inds with err | r
      · rfl
      · obtain ⟨nodes, size, edges⟩ := r
        show sampleHops replace rowptr ei rest nodes (adjs ++ [⟨edges, size⟩])
          = Except.map (fun q => (q.1, adjs ++ q.2))
              (match hopsSpec replace rowptr ei rest nodes with
                | Except.error err => Except.error err
                | Except.ok (fin, subs) => Except.ok (fin, ⟨edges, size⟩ :: subs))
        rw [ih nodes (adjs ++ [(⟨edges, size⟩ : subg)])]
        rcases hr : hopsSpec replace rowptr ei rest nodes with err | q
        · rfl
        · obtain ⟨fin, subs⟩ := q
          show Except.ok (fin, (adjs ++ [(⟨edges, size⟩ : subg)]) ++ subs)
            = Except.ok (fin, adjs ++ (⟨edges, size⟩ : subg) :: subs)
          rw [List.append_assoc, List.singleton_append]

theorem hopsSpec_length (replace : Bool) (rowptr : List Nat) (ei : List (Nat × Nat)) :
    ∀ (hops : List (Int × List (List Nat))) (dst fin : List Nat) (subs : List subg),
    hopsSpec replace rowptr ei hops dst = .ok (fin, subs) → subs.length = hops.length := by
  intro hops
  induction hops with
  | nil =>
      intro dst fin subs h
      rw [hopsSpec] at h
      simp only [Except.ok.injEq, Prod.mk.injEq] at h
      rw [← h.2]
      rfl
  | cons hop rest ih =>
      intro dst fin subs h
      obtain ⟨s, inds⟩ := hop
      rw [hopsSpec] at h
      rcases hc : sample_subset s replace rowptr ei dst inds with err | r <;> rw [hc] at h
      · exact absurd h (by simp)
      · obtain ⟨nodes, size, edges⟩ := r
        have h' : (match hopsSpec replace rowptr ei rest nodes with
            | Except.error err => (Except.error err : Except SampErr (List Nat × List subg))
            | Except.ok (fin, subs) => Except.ok (fin, ⟨edges, size⟩ :: subs))
            = Except.ok (fin, subs) := h
        rcases hr : hopsSpec replace rowptr ei rest nodes with err | q
        · rw [hr] at h'
          have h2 : (Except.error err : Except SampErr (List Nat × List subg))
              = Except.ok (fin, subs) := h'
          exact absurd h2 (by simp)
        · obtain ⟨fin', subs'⟩ := q
          rw [hr] at h'
          have h2 : (Except.ok (fin', (⟨edges, size⟩ : subg) :: subs')
              : Except SampErr (List Nat × List subg)) = Except.ok (fin, subs) := h'
          simp only [Except.ok.injEq, Prod.mk.injEq] at h2
          rw [← h2.2, List.length_cons, ih nodes fin' subs' hr, List.length_cons]

/-! ### Lemmas: helpers for the random-branch hypotheses -/

theorem forall₂_strengthen {α β : Type} (Q : α → Prop) (P : α → β → Prop) :
    ∀ (l₁ : List α) (l₂ : List β), List.Forall₂ (fun a b => Q a → P a b) l₁ l₂ →
    (∀ a ∈ l₁, Q a) → List.Forall₂ P l₁ l₂ := by
  intro l₁ l₂ h
  induction h with
  | nil => intro _; exact List.Forall₂.nil
  | cons hab _ ih =>
      intro hq
      exact List.Forall₂.cons (hab (hq _ (List.mem_cons_self _ _)))
        (ih (fun a ha => hq a (List.mem_cons_of_mem _ ha)))

theorem selRep_length (rowptr : List Nat) (n : Nat) :
    ∀ (ds : List Nat) (inds : List (List Nat)),
    List.Forall₂ (fun _ ind => List.length ind = n) ds inds →
    (selRep rowptr ds inds).length = ds.length * n := by
  intro ds inds h
  induction h with
  | nil => simp [selRep]
  | @cons d ind ds' inds' hab htail ih =>
      rw [selRep]
      have htl : (ind :: inds').tail = inds' := rfl
      have hhd : (ind :: inds').headD [] = ind := rfl
      rw [htl, hhd, List.length_append, posRep, List.length_map, hab, ih, List.length_cons,
        Nat.succ_mul]
      omega

end NSP

open NSP

/-! ### The claims -/

/-- C6: the multi-hop driver runs one hop per fanout value in list order
(`hopsSpec` is that recursion: it feeds each hop's full returned node list —
the remapper keys in assignment order — to the next hop as its destination
set), and the returned record is the seed batch, the per-hop subgraph list
reversed (index 0 = last hop sampled), and `all_nodes` = the final hop's
node list. -/
theorem C6_driver_hop_order (replace : Bool) (rowptr : List Nat) (ei : List (Nat × Nat))
    (hops : List (Int × List (List Nat))) (batch : List Nat) :
    NSP.sample replace rowptr ei hops batch
      = (hopsSpec replace rowptr ei hops batch).map (fun q => (batch, q.2.reverse, q.1))
    ∧ ∀ (fin : List Nat) (subs : List subg),
        hopsSpec replace rowptr ei hops batch = .ok (fin, subs) →
        subs.length = hops.length := by
  constructor
  · rw [NSP.sample, sampleHops_eq replace rowptr ei hops batch []]
    rcases hr : hopsSpec replace rowptr ei hops batch with err | q
    · rfl
    · obtain ⟨fin, subs⟩ := q
      rfl
  · exact fun fin subs h => hopsSpec_length replace rowptr ei hops batch fin subs h

/-- C8: degenerate inputs do not raise.  An empty fanout list makes the
driver return the seeds-only record with an empty subgraph list; an empty
destination set makes a hop return an empty edge list and size `(0, 0)`,
for every fanout and replace flag. -/
theorem C8_degenerate_inputs (replace : Bool) (rowptr : List Nat) (ei : List (Nat × Nat)) :
    (∀ batch : List Nat, NSP.sample replace rowptr ei [] batch = .ok (batch, [], batch))
    ∧ ∀ (s : Int) (inds : List (List Nat)),
        sample_subset s replace rowptr ei [] inds = .ok ([], (0, 0), []) := by
  constructor
  · intro batch
    rfl
  · intro s inds
    by_cases h1 : s = -1
    · subst h1
      rfl
    · cases replace with
      | false =>
          show (match sampleCore s false rowptr ei [] inds (insertDsts []) with
            | .error err => .error err
            | .ok (m, e_id) =>
                match small_g ei m e_id with
                | .error err => .error err
                | .ok new_edges =>
                    .ok (keys m, (m.length, (insertDsts []).length), new_edges))
            = Except.ok ([], (0, 0), [])
          rw [show sampleCore s false rowptr ei [] inds (insertDsts [])
              = .ok ([], []) by rw [sampleCore, if_neg h1, if_pos rfl]; rfl]
          rfl
      | true =>
          show (match sampleCore s true rowptr ei [] inds (insertDsts []) with
            | .error err => .error err
            | .ok (m, e_id) =>
                match small_g ei m e_id with
                | .error err => .error err
                | .ok new_edges =>
                    .ok (keys m, (m.length, (insertDsts []).length), new_edges))
            = Except.ok ([], (0, 0), [])
          rw [show sampleCore s true rowptr ei [] inds (insertDsts [])
              = .ok ([], []) by rw [sampleCore, if_neg h1, if_neg (by simp)]; rfl]
          rfl

/-- C9 counterexample: constructing the sampler with a row-pointer array
that is both non-monotonic (`[2, 0, 5]`) and of the wrong length never
raises: `__init__` returns the stored state, so the claimed
construction-time `ConstructionError` does not exist in the code. -/
theorem C9_counterexample :
    sampler_init [(1, 0)] [2, 0, 5] [0] [(-1 : Int)] false
      = .ok ⟨[(-1 : Int)], [(1, 0)], [0], [2, 0, 5], false⟩ := rfl

/-- C9 amended: the sampler constructor performs no validation of the
row-pointer array whatsoever — it always succeeds, merely storing its
arguments, for every input (malformed CSR input is not detected at
construction time). -/
theorem C9_no_construction_validation (edge_index : List (Nat × Nat)) (indptr : List Nat)
    (dst_nodes : List Nat) (sample_lists : List Int) (replace : Bool) :
    sampler_init edge_index indptr dst_nodes sample_lists replace
      = .ok ⟨sample_lists, edge_index, dst_nodes, indptr, replace⟩ := rfl

/-- C1: with `fanout == -1` and distinct destination nodes, the hop selects
— regardless of the replace flag — exactly the edge positions
`rowptr[d]..rowptr[d+1]-1` of every destination `d`, concatenated in
destination input order (`selFull`); the selected list has no duplicates
and contains precisely the positions of every destination's CSR range. -/
theorem C1_full_expansion_coverage (rowptr : List Nat) (ei : List (Nat × Nat))
    (dsts : List Nat) (replace : Bool) (inds : List (List Nat))
    (hmono : monoAt rowptr) (hnd : dsts.Nodup)
    (hin : ∀ d ∈ dsts, d + 1 < rowptr.length) :
    (∃ m, sampleCore (-1) replace rowptr ei dsts inds (insertDsts dsts)
        = .ok (m, selFull rowptr dsts))
    ∧ (selFull rowptr dsts).Nodup
    ∧ ∀ p, p ∈ selFull rowptr dsts ↔
        ∃ d ∈ dsts, rowptr.getD d 0 ≤ p ∧ p < rowptr.getD (d + 1) 0 := by
  have h2 := (fullLoop_props rowptr ei dsts (insertDsts dsts, [])).1
  rw [List.nil_append] at h2
  refine ⟨⟨(fullLoop rowptr ei dsts (insertDsts dsts, [])).1, ?_⟩,
    selFull_nodup rowptr dsts hmono hnd hin, ?_⟩
  · rw [sampleCore, if_pos rfl, ← h2]
  · intro p
    rw [mem_selFull]
    constructor
    · rintro ⟨d, hd, hp⟩
      exact ⟨d, hd, (mem_posFull_of_mono rowptr hmono d p (hin d hd)).mp hp⟩
    · rintro ⟨d, hd, hp⟩
      exact ⟨d, hd, (mem_posFull_of_mono rowptr hmono d p (hin d hd)).mpr hp⟩

/-- C1 witness: the spec's 4-node scenario graph, destinations `[0, 2]`,
full expansion with `replace = true`. -/
theorem C1_full_expansion_coverage_witness :
    ∃ m, sampleCore (-1) true [0, 2, 3, 5, 5] [(1, 0), (2, 0), (2, 1), (0, 2), (1, 2)]
        [0, 2] [] (insertDsts [0, 2])
      = .ok (m, selFull [0, 2, 3, 5, 5] [0, 2]) :=
  (C1_full_expansion_coverage [0, 2, 3, 5, 5] [(1, 0), (2, 0), (2, 1), (0, 2), (1, 2)]
    [0, 2] true [] (by decide) (by decide) (by decide)).1

/-- C4: after the destination-insertion step of a hop with distinct
destination nodes, the remapper maps the `k`-th destination to local index
`k` (indices `0..len(dst_nodes)-1` exactly, in input order), and after any
branch of the sampling step the first `len(dst_nodes)` entries of the hop's
returned node list are the destination nodes in input order. -/
theorem C4_destination_first_indexing (dsts : List Nat) (hnd : dsts.Nodup) :
    keys (insertDsts dsts) = dsts
    ∧ (∀ k, k < dsts.length → dictGet? (insertDsts dsts) (dsts.getD k 0) = some k)
    ∧ (insertDsts dsts).length = dsts.length
    ∧ ∀ (sample : Int) (replace : Bool) (rowptr : List Nat) (ei : List (Nat × Nat))
        (inds : List (List Nat)) (m : Remap) (e : List Nat),
        sampleCore sample replace rowptr ei dsts inds (insertDsts dsts) = .ok (m, e) →
        (keys m).take dsts.length = dsts := by
  refine ⟨keys_insertDsts dsts hnd, ?_, length_insertDsts dsts hnd, ?_⟩
  · intro k hk
    rw [insertDsts_eq_dstPairs dsts hnd, dictGet?_dstPairs dsts hnd 0 k hk, Nat.zero_add]
  · intro sample replace rowptr ei inds m e h
    obtain ⟨⟨t, ht⟩, -, -, -⟩ := sampleCore_ok_inv sample replace rowptr ei dsts inds _ m e h
    rw [ht, keys_append, keys_insertDsts dsts hnd]
    exact List.take_left dsts (keys t)

/-- C4 witness: destinations `[5, 3, 7]`. -/
theorem C4_destination_first_indexing_witness :
    keys (insertDsts [5, 3, 7]) = [5, 3, 7] :=
  (C4_destination_first_indexing [5, 3, 7] (by decide)).1

/-- C5: throughout a hop on distinct destination nodes, the remapper is a
bijection between the distinct global ids encountered (destinations union
discovered sources) and the local indices `0..n-1` in discovery order: its
keys are duplicate-free, its values are exactly `0..n-1` in insertion
order, the sampling step only appends entries after the destination block
(monotonic growth, no removal or overwrite), and its key set is exactly
the destinations together with the sources of the selected edges. -/
theorem C5_remapper_bijection (dsts : List Nat) (hnd : dsts.Nodup) (sample : Int)
    (replace : Bool) (rowptr : List Nat) (ei : List (Nat × Nat)) (inds : List (List Nat))
    (m : Remap) (e : List Nat)
    (h : sampleCore sample replace rowptr ei dsts inds (insertDsts dsts) = .ok (m, e)) :
    (keys m).Nodup
    ∧ m.map Prod.snd = List.range m.length
    ∧ (∃ t, m = insertDsts dsts ++ t)
    ∧ ∀ x, x ∈ keys m ↔ x ∈ dsts ∨ ∃ p ∈ e, x = (ei.getD p (0, 0)).1 := by
  obtain ⟨hpre, hmem, hwf, hndk⟩ := sampleCore_ok_inv sample replace rowptr ei dsts inds _ m e h
  have hk := keys_insertDsts dsts hnd
  refine ⟨hndk (by rw [hk]; exact hnd), hwf (wfVals_insertDsts dsts hnd), hpre, ?_⟩
  intro x
  rw [hmem x, hk]

/-- C5 witness: the spec's scenario graph, seed `[0]`, full expansion. -/
theorem C5_remapper_bijection_witness :
    (keys [(0, 0), (1, 1), (2, 2)]).Nodup :=
  (C5_remapper_bijection [0] (by decide) (-1) false [0, 2, 3, 5, 5]
    [(1, 0), (2, 0), (2, 1), (0, 2), (1, 2)] [] [(0, 0), (1, 1), (2, 2)] [0, 1]
    (by rfl)).1

/-- C2: without replacement and a non-negative fanout, a hop never raises
(the no-replace branch returns `.ok` with the per-node selections
`selNoRep`), and per destination node: if `fanout ≥ degree` the selection
is the node's entire range (duplicate-free, including degree 0); otherwise
— given numpy's draw contract — it is exactly `fanout` distinct positions
inside the node's CSR range. -/
theorem C2_no_replace_cap (sample : Int) (rowptr : List Nat) (ei : List (Nat × Nat))
    (dsts : List Nat) (inds : List (List Nat)) (hs : 0 ≤ sample) (hmono : monoAt rowptr) :
    (∃ m, sampleCore sample false rowptr ei dsts inds (insertDsts dsts)
        = .ok (m, selNoRep sample rowptr dsts inds))
    ∧ ∀ (d : Nat) (ind : List Nat),
        ((deg rowptr d : Int) ≤ sample →
          posNoRep sample rowptr d ind = posFull rowptr d
          ∧ (posNoRep sample rowptr d ind).Nodup)
        ∧ (sample < (deg rowptr d : Int) → ind.length = sample.toNat → ind.Nodup →
            (∀ x ∈ ind, x < deg rowptr d) → d + 1 < rowptr.length →
            (posNoRep sample rowptr d ind).length = sample.toNat
            ∧ (posNoRep sample rowptr d ind).Nodup
            ∧ ∀ p ∈ posNoRep sample rowptr d ind,
                rowptr.getD d 0 ≤ p ∧ p < rowptr.getD (d + 1) 0) := by
  constructor
  · have hne : sample ≠ -1 := by omega
    obtain ⟨M, hMeq, -, -, -, -⟩ :=
      noRepLoop_ok_of_nonneg sample rowptr ei hs dsts inds (insertDsts dsts, [])
    rw [List.nil_append] at hMeq
    exact ⟨M, by rw [sampleCore, if_neg hne, if_pos rfl, hMeq]⟩
  · intro d ind
    constructor
    · intro hge
      have heq : posNoRep sample rowptr d ind = posFull rowptr d := by
        rw [posNoRep, if_pos hge]
      exact ⟨heq, heq ▸ posFull_nodup rowptr d⟩
    · intro hlt hlen hndp hbound hd1
      have hng : ¬ sample ≥ (deg rowptr d : Int) := by omega
      rw [posNoRep, if_neg hng]
      refine ⟨by rw [List.length_map, hlen], ?_, ?_⟩
      · exact List.Nodup.map (fun a b hab => Nat.add_left_cancel hab) hndp
      · intro p hp
        rw [List.mem_map] at hp
        obtain ⟨x, hx, rfl⟩ := hp
        have hxd := hbound x hx
        have hadj : rowptr.getD d 0 ≤ rowptr.getD (d + 1) 0 := hmono d (by omega)
        exact ⟨Nat.le_add_right _ _, by unfold deg at hxd; omega⟩

/-- C2 witness: the scenario graph, fanout 1, destinations `[0, 1]` — node
0 has degree 2 (random branch, draw `[0]`), node 1 has degree 1 (full
takeover branch). -/
theorem C2_no_replace_cap_witness :
    ∃ m, sampleCore 1 false [0, 2, 3, 5, 5] [(1, 0), (2, 0), (2, 1), (0, 2), (1, 2)]
        [0, 1] [[0], [0]] (insertDsts [0, 1])
      = .ok (m, selNoRep 1 [0, 2, 3, 5, 5] [0, 1] [[0], [0]]) :=
  (C2_no_replace_cap 1 [0, 2, 3, 5, 5] [(1, 0), (2, 0), (2, 1), (0, 2), (1, 2)]
    [0, 1] [[0], [0]] (by decide) (by decide)).1

/-- C3: with replacement and `fanout ≥ 1`, a hop fails (with the
`ValueError` that `np.random.choice` raises on an empty population — the
spec's `EmptyNeighborhoodError`) exactly when some destination node has
degree 0; otherwise every node contributes exactly `fanout` positions from
its range (duplicates allowed).  The error propagates through
`sample_subset` to the caller rather than the node being skipped. -/
theorem C3_replace_exact_draws_and_empty_error (sample : Int) (rowptr : List Nat)
    (ei : List (Nat × Nat)) (dsts : List Nat) (inds : List (List Nat)) (hs : 1 ≤ sample)
    (hind : List.Forall₂ (fun d ind => 0 < deg rowptr d →
        ind.length = sample.toNat ∧ ∀ x ∈ ind, x < deg rowptr d) dsts inds) :
    ((sampleCore sample true rowptr ei dsts inds (insertDsts dsts) = .error .valueError)
      ↔ ∃ d ∈ dsts, deg rowptr d = 0)
    ∧ ((∀ d ∈ dsts, deg rowptr d ≠ 0) →
        ∃ m, sampleCore sample true rowptr ei dsts inds (insertDsts dsts)
            = .ok (m, selRep rowptr dsts inds)
          ∧ (selRep rowptr dsts inds).length = dsts.length * sample.toNat
          ∧ ∀ p ∈ selRep rowptr dsts inds,
              ∃ d ∈ dsts, rowptr.getD d 0 ≤ p ∧ p < rowptr.getD d 0 + deg rowptr d)
    ∧ ((∃ d ∈ dsts, deg rowptr d = 0) →
        sample_subset sample true rowptr ei dsts inds = .error .valueError) := by
  have hne : sample ≠ -1 := by omega
  have hs0 : (0 : Int) ≤ sample := by omega
  have hsn : sample ≠ 0 := by omega
  have hcore : sampleCore sample true rowptr ei dsts inds (insertDsts dsts)
      = repLoop sample rowptr ei dsts inds (insertDsts dsts, []) := by
    rw [sampleCore, if_neg hne, if_neg (by simp)]
  have hok : (∀ d ∈ dsts, deg rowptr d ≠ 0) →
      ∃ m, sampleCore sample true rowptr ei dsts inds (insertDsts dsts)
          = .ok (m, selRep rowptr dsts inds)
        ∧ (selRep rowptr dsts inds).length = dsts.length * sample.toNat
        ∧ ∀ p ∈ selRep rowptr dsts inds,
            ∃ d ∈ dsts, rowptr.getD d 0 ≤ p ∧ p < rowptr.getD d 0 + deg rowptr d := by
    intro hz
    have hz' : ∀ d ∈ dsts, ¬(deg rowptr d = 0 ∧ sample ≠ 0) := fun d hd hc => hz d hd hc.1
    have hQ : ∀ d ∈ dsts, 0 < deg rowptr d := fun d hd => Nat.pos_of_ne_zero (hz d hd)
    have hlen : List.Forall₂ (fun _ ind => List.length ind = sample.toNat) dsts inds :=
      forall₂_strengthen _ _ dsts inds (hind.imp (fun _ _ h hq => (h hq).1)) hQ
    have hbnd : List.Forall₂ (fun d ind => ∀ x ∈ ind, x < deg rowptr d) dsts inds :=
      forall₂_strengthen _ _ dsts inds (hind.imp (fun _ _ h hq => (h hq).2)) hQ
    obtain ⟨M, hMeq, -, -, -, -⟩ :=
      repLoop_ok_of sample rowptr ei hs0 dsts hz' inds (insertDsts dsts, [])
    rw [List.nil_append] at hMeq
    refine ⟨M, by rw [hcore, hMeq], selRep_length rowptr sample.toNat dsts inds hlen, ?_⟩
    intro p hp
    have hb := repLoop_ok_bounds sample rowptr ei dsts inds hbnd (insertDsts dsts, []) M
      (selRep rowptr dsts inds) hMeq p hp
    rcases hb with hin | hb
    · exact absurd hin (List.not_mem_nil p)
    · exact hb
  have hiff : (sampleCore sample true rowptr ei dsts inds (insertDsts dsts)
      = .error .valueError) ↔ ∃ d ∈ dsts, deg rowptr d = 0 := by
    constructor
    · intro herr
      by_contra hno
      push_neg at hno
      obtain ⟨m, hm, -, -⟩ := hok hno
      rw [hm] at herr
      exact absurd herr (by simp)
    · rintro ⟨d, hd, hdeg⟩
      rw [hcore]
      exact repLoop_error_of sample rowptr ei hsn dsts inds (insertDsts dsts, [])
        ⟨d, hd, hdeg⟩
  refine ⟨hiff, hok, ?_⟩
  intro hex
  unfold sample_subset
  rw [hiff.mpr hex]

/-- C3 witness: node 3 of the scenario graph has degree 0; sampling 2 with
replacement from it is surfaced to the caller as the error. -/
theorem C3_replace_exact_draws_and_empty_error_witness :
    sample_subset 2 true [0, 2, 3, 5, 5] [(1, 0), (2, 0), (2, 1), (0, 2), (1, 2)] [3] [[]]
      = .error .valueError :=
  (C3_replace_exact_draws_and_empty_error 2 [0, 2, 3, 5, 5]
    [(1, 0), (2, 0), (2, 1), (0, 2), (1, 2)] [3] [[]] (by decide) (by decide)).2.2
    (by decide)

/-- C7: a successful hop on distinct destination nodes returns
`size = (number of remapper entries after the hop, number of destination
nodes before the hop)`; every local id in its renumbered edge list is
`< size.1`, and `size.2 ≤ size.1`. -/
theorem C7_subgraph_size_invariants (dsts : List Nat) (hnd : dsts.Nodup) (sample : Int)
    (replace : Bool) (rowptr : List Nat) (ei : List (Nat × Nat)) (inds : List (List Nat))
    (nodes : List Nat) (size : Nat × Nat) (edges : List (Nat × Nat))
    (h : sample_subset sample replace rowptr ei dsts inds = .ok (nodes, size, edges)) :
    size.2 = dsts.length
    ∧ (∃ m e, sampleCore sample replace rowptr ei dsts inds (insertDsts dsts) = .ok (m, e)
        ∧ size.1 = m.length ∧ nodes = keys m)
    ∧ (∀ q ∈ edges, q.1 < size.1 ∧ q.2 < size.1)
    ∧ size.2 ≤ size.1 := by
  unfold sample_subset at h
  rcases hc : sampleCore sample replace rowptr ei dsts inds (insertDsts dsts) with err | r
  · rw [hc] at h
    have h2 : (Except.error err : Except SampErr (List Nat × (Nat × Nat) × List (Nat × Nat)))
        = .ok (nodes, size, edges) := h
    exact absurd h2 (by simp)
  · obtain ⟨m, e⟩ := r
    rw [hc] at h
    have h' : (match small_g ei m e with
        | Except.error err => Except.error err
        | Except.ok new_edges =>
            Except.ok (keys m, (m.length, (insertDsts dsts).length), new_edges))
        = Except.ok (nodes, size, edges) := h
    rcases hg : small_g ei m e with err | E
    · rw [hg] at h'
      have h2 : (Except.error err
          : Except SampErr (List Nat × (Nat × Nat) × List (Nat × Nat)))
          = .ok (nodes, size, edges) := h'
      exact absurd h2 (by simp)
    · rw [hg] at h'
      have h2 : (Except.ok (keys m, (m.length, (insertDsts dsts).length), E)
          : Except SampErr (List Nat × (Nat × Nat) × List (Nat × Nat)))
          = .ok (nodes, size, edges) := h'
      simp only [Except.ok.injEq, Prod.mk.injEq] at h2
      obtain ⟨hnodes, hsz, hE⟩ := h2
      subst hnodes
      subst hsz
      subst hE
      obtain ⟨⟨t, ht⟩, -, hwf, -⟩ :=
        sampleCore_ok_inv sample replace rowptr ei dsts inds _ m e hc
      have hwfm : WfVals m := hwf (wfVals_insertDsts dsts hnd)
      unfold WfVals at hwfm
      refine ⟨length_insertDsts dsts hnd, ⟨m, e, rfl, rfl, rfl⟩, ?_, ?_⟩
      · intro q hq
        have hv := small_g_ok_values ei m e E hg q hq
        rw [hwfm] at hv
        exact ⟨List.mem_range.mp hv.1, List.mem_range.mp hv.2⟩
      · show (insertDsts dsts).length ≤ m.length
        rw [ht, List.length_append]
        omega

/-- C7 witness: the scenario graph, seed `[0]`, full expansion, giving
`size = (3, 1)`. -/
theorem C7_subgraph_size_invariants_witness :
    ∃ m e, sampleCore (-1) false [0, 2, 3, 5, 5] [(1, 0), (2, 0), (2, 1), (0, 2), (1, 2)]
        [0] [] (insertDsts [0]) = .ok (m, e)
      ∧ ((3, 1) : Nat × Nat).1 = m.length ∧ [0, 1, 2] = keys m :=
  (C7_subgraph_size_invariants [0] (by decide) (-1) false [0, 2, 3, 5, 5]
    [(1, 0), (2, 0), (2, 1), (0, 2), (1, 2)] [] [0, 1, 2] (3, 1) [(1, 0), (2, 0)]
    (by rfl)).2.1

/-- C10: on a well-formed CSR adjacency (monotone row pointer of length
`num_nodes + 1` closing at the edge count, with each position's stored
destination endpoint equal to the owning row) and in-range destination
nodes, every position any branch of the sampler selects lies inside its
destination's CSR range (hence in bounds of the edge array), and the
renumbering step's remapper lookups always succeed — `small_g`'s
`KeyError` branch is unreachable, so `sample_subset` never returns it. -/
theorem C10_selected_positions_safe (rowptr : List Nat) (ei : List (Nat × Nat)) (n : Nat)
    (dsts : List Nat) (inds : List (List Nat))
    (hmono : monoAt rowptr) (hlen : rowptr.length = n + 1)
    (hlast : rowptr.getD n 0 = ei.length)
    (hcsr : ∀ d, d < n → ∀ p, p < ei.length → rowptr.getD d 0 ≤ p →
        p < rowptr.getD (d + 1) 0 → (ei.getD p (0, 0)).2 = d)
    (hdin : ∀ d ∈ dsts, d < n)
    (hind : List.Forall₂ (fun d ind => ∀ x ∈ ind, x < deg rowptr d) dsts inds) :
    (∀ (sample : Int) (replace : Bool) (m : Remap) (e : List Nat),
        sampleCore sample replace rowptr ei dsts inds (insertDsts dsts) = .ok (m, e) →
        (∀ p ∈ e, (∃ d ∈ dsts, rowptr.getD d 0 ≤ p ∧ p < rowptr.getD (d + 1) 0)
            ∧ p < ei.length)
        ∧ ∃ edges, small_g ei m e = .ok edges)
    ∧ ∀ (sample : Int) (replace : Bool),
        sample_subset sample replace rowptr ei dsts inds ≠ .error .keyError := by
  have hconv : ∀ p, (∃ d ∈ dsts, rowptr.getD d 0 ≤ p ∧ p < rowptr.getD d 0 + deg rowptr d) →
      ∃ d ∈ dsts, rowptr.getD d 0 ≤ p ∧ p < rowptr.getD (d + 1) 0 := by
    rintro p ⟨d, hd, h1, h2⟩
    have hdn := hdin d hd
    have hadj : rowptr.getD d 0 ≤ rowptr.getD (d + 1) 0 := hmono d (by omega)
    exact ⟨d, hd, h1, by unfold deg at h2; omega⟩
  have hlt : ∀ p, (∃ d ∈ dsts, rowptr.getD d 0 ≤ p ∧ p < rowptr.getD (d + 1) 0) →
      p < ei.length := by
    rintro p ⟨d, hd, h1, h2⟩
    have hdn := hdin d hd
    have hub : rowptr.getD (d + 1) 0 ≤ rowptr.getD n 0 :=
      monoAt_le rowptr hmono n (by omega) (d + 1) (by omega)
    omega
  have hbounds : ∀ (sample : Int) (replace : Bool) (m : Remap) (e : List Nat),
      sampleCore sample replace rowptr ei dsts inds (insertDsts dsts) = .ok (m, e) →
      ∀ p ∈ e, ∃ d ∈ dsts, rowptr.getD d 0 ≤ p ∧ p < rowptr.getD d 0 + deg rowptr d := by
    intro sample replace m e h p hp
    unfold sampleCore at h
    by_cases h1 : sample = -1
    · rw [if_pos h1] at h
      simp only [Except.ok.injEq] at h
      have he : (fullLoop rowptr ei dsts (insertDsts dsts, [])).2 = e := congrArg Prod.snd h
      have h2 := (fullLoop_props rowptr ei dsts (insertDsts dsts, [])).1
      rw [List.nil_append] at h2
      rw [← he, h2, mem_selFull] at hp
      obtain ⟨d, hd, hpd⟩ := hp
      rw [mem_posFull] at hpd
      exact ⟨d, hd, hpd⟩
    · rw [if_neg h1] at h
      cases replace with
      | false =>
          rw [if_pos rfl] at h
          have hb := noRepLoop_ok_bounds sample rowptr ei dsts inds hind
            (insertDsts dsts, []) m e h p hp
          rcases hb with hin | hb
          · exact absurd hin (List.not_mem_nil p)
          · exact hb
      | true =>
          rw [if_neg (by simp)] at h
          have hb := repLoop_ok_bounds sample rowptr ei dsts inds hind
            (insertDsts dsts, []) m e h p hp
          rcases hb with hin | hb
          · exact absurd hin (List.not_mem_nil p)
          · exact hb
  have hmain : ∀ (sample : Int) (replace : Bool) (m : Remap) (e : List Nat),
      sampleCore sample replace rowptr ei dsts inds (insertDsts dsts) = .ok (m, e) →
      (∀ p ∈ e, (∃ d ∈ dsts, rowptr.getD d 0 ≤ p ∧ p < rowptr.getD (d + 1) 0)
          ∧ p < ei.length)
      ∧ ∃ edges, small_g ei m e = .ok edges := by
    intro sample replace m e h
    have hb : ∀ p ∈ e, (∃ d ∈ dsts, rowptr.getD d 0 ≤ p ∧ p < rowptr.getD (d + 1) 0)
        ∧ p < ei.length := by
      intro p hp
      have hx := hconv p (hbounds sample replace m e h p hp)
      exact ⟨hx, hlt p hx⟩
    refine ⟨hb, ?_⟩
    obtain ⟨-, hmem, -, -⟩ := sampleCore_ok_inv sample replace rowptr ei dsts inds _ m e h
    have hlk : ∀ p ∈ e, (ei.getD p (0, 0)).1 ∈ keys m ∧ (ei.getD p (0, 0)).2 ∈ keys m := by
      intro p hp
      refine ⟨(hmem _).mpr (Or.inr ⟨p, hp, rfl⟩), ?_⟩
      obtain ⟨⟨d, hd, h1, h2⟩, hpl⟩ := hb p hp
      have hdn := hdin d hd
      have hde : (ei.getD p (0, 0)).2 = d := hcsr d hdn p hpl h1 h2
      rw [hde]
      exact (hmem _).mpr (Or.inl (mem_keys_insertDsts dsts d hd))
    obtain ⟨E, hE, -, -⟩ := small_g_ok_of ei m e hlk
    exact ⟨E, hE⟩
  refine ⟨hmain, ?_⟩
  intro sample replace hcontra
  unfold sample_subset at hcontra
  rcases hc : sampleCore sample replace rowptr ei dsts inds (insertDsts dsts) with err | r
  · rw [hc] at hcontra
    have h2 : (Except.error err : Except SampErr (List Nat × (Nat × Nat) × List (Nat × Nat)))
        = .error .keyError := hcontra
    have hval := sampleCore_error_val sample replace rowptr ei dsts inds _ err hc
    simp only [Except.error.injEq] at h2
    rw [hval] at h2
    exact SampErr.noConfusion h2
  · obtain ⟨m, e⟩ := r
    rw [hc] at hcontra
    obtain ⟨E, hE⟩ := (hmain sample replace m e hc).2
    have h2 : (match small_g ei m e with
        | Except.error err => Except.error err
        | Except.ok new_edges =>
            Except.ok (keys m, (m.length, (insertDsts dsts).length), new_edges))
        = (Except.error SampErr.keyError
            : Except SampErr (List Nat × (Nat × Nat) × List (Nat × Nat))) := hcontra
    rw [hE] at h2
    have h3 : (Except.ok (keys m, (m.length, (insertDsts dsts).length), E)
        : Except SampErr (List Nat × (Nat × Nat) × List (Nat × Nat)))
        = .error .keyError := h2
    exact absurd h3 (by simp)

/-- C10 witness: the scenario graph as a well-formed CSR adjacency on 4
nodes; the hop on destinations `[0, 2]` never hits the `KeyError` branch. -/
theorem C10_selected_positions_safe_witness :
    sample_subset (-1) true [0, 2, 3, 5, 5] [(1, 0), (2, 0), (2, 1), (0, 2), (1, 2)]
      [0, 2] [[0], [1]] ≠ .error .keyError :=
  (C10_selected_positions_safe [0, 2, 3, 5, 5] [(1, 0), (2, 0), (2, 1), (0, 2), (1, 2)] 4
    [0, 2] [[0], [1]] (by decide) (by decide) (by decide) (by decide) (by decide)
    (by decide)).2 (-1) true
